import Mathlib

/-!
# Verification of the advanced multi-strategy byte codec (src/compress.c)

Shallow embedding of `advanced_compress` / `advanced_decompress` and their
helpers (`find_pattern`, `is_delta_sequence`, `can_nibble_pack`) from
`src/compress.c`.

Modelling conventions:
* a byte buffer is a `List Nat` (C `uint8_t*` + `size_t` length); element reads
  `data_ptr[i]` become `data.getD i 0` and are always guarded by the same
  bounds tests the C code performs;
* C `size_t` arithmetic that can wrap (the subtractions inside `find_pattern`)
  is modelled explicitly modulo `2 ^ 64` (`sub64`); everything else in the
  encoder stays within `Nat` because the C code keeps it in range;
* C `int` arithmetic (deltas) is modelled with `Int`, and the C bitwise
  `& 0x7F` on a possibly negative two's-complement `int` is `Int.emod 128`;
* the C `while` loops, whose iteration counts the C code bounds by explicit
  caps (255, 63, 62, 61, 16) or by the buffer length, become structurally
  recursive functions on a fuel argument set to exactly that bound;
* the encoder's main loop is split into `step` (one iteration: which token is
  emitted at a cursor position) and `encTokens` (the loop, with fuel
  `data.length`, which suffices because every iteration advances the cursor,
  see `c10_encoder_terminates`); `advanced_compress` is the concatenation of
  the serialized tokens, exactly the bytes the C loop writes;
* the decoder `advanced_decompress` consumes the stream from the front (the C
  cursor `in_pos` only moves forward); a read past the end of the buffer, or
  past the end of the 8-entry `common_values` table -- undefined behaviour in
  the C code, which has no bounds checks -- is modelled as the result `none`.
  A successful pass returns `some output`.
-/

namespace Compress

/-- `#define MODE_RLE 0x80` -/
def MODE_RLE : Nat := 0x80

/-- `#define MODE_DELTA 0xC0` -/
def MODE_DELTA : Nat := 0xC0

/-- `#define MODE_NIBBLE 0x40` -/
def MODE_NIBBLE : Nat := 0x40

/-- `#define MODE_LITERAL 0x00` -/
def MODE_LITERAL : Nat := 0x00

/-- `#define MODE_MASK 0xC0` -/
def MODE_MASK : Nat := 0xC0

/-- `#define LENGTH_MASK 0x3F` -/
def LENGTH_MASK : Nat := 0x3F

/-- `#define EXT_PATTERN 0xE0` -/
def EXT_PATTERN : Nat := 0xE0

/-- `#define EXT_ZERO_RUN 0xF0` -/
def EXT_ZERO_RUN : Nat := 0xF0

/-- `#define EXT_INCR_SEQ 0xF1` (reserved; never produced, never decoded) -/
def EXT_INCR_SEQ : Nat := 0xF1

/-- `#define EXT_COMMON_VAL 0xF2` -/
def EXT_COMMON_VAL : Nat := 0xF2

/-- `static const uint8_t common_values[] = {0x00,0x01,0x02,0x03,0x04,0xFF,0x7F,0x20}` -/
def common_values : List Nat := [0x00, 0x01, 0x02, 0x03, 0x04, 0xFF, 0x7F, 0x20]

/-- `#define NUM_COMMON_VALUES 8` -/
def NUM_COMMON_VALUES : Nat := 8

/-- `2 ^ 64`, the modulus of C `size_t` arithmetic. -/
def SZ : Nat := 2 ^ 64

/-- C `size_t` subtraction `a - b`, which wraps modulo `2 ^ 64`. -/
def sub64 (a b : Nat) : Nat := (a + (SZ - b % SZ)) % SZ

/-- Counts how many consecutive positions starting at `i` hold the byte `v`,
stopping at the end of the buffer or after `fuel` steps.  This is the shape of
the inner `while` loops of `advanced_compress` that extend a run
(`data_ptr[in_pos + run] == current && run < cap`). -/
def runExt (data : List Nat) (v : Nat) : Nat → Nat → Nat
  | _, 0 => 0
  | i, fuel + 1 =>
    if i < data.length ∧ data.getD i 0 = v then runExt data v (i + 1) fuel + 1 else 0

/-- The `delta` computed by `is_delta_sequence`:
`(int)data[start + 1] - (int)data[start]`. -/
def deltaOf (data : List Nat) (start : Nat) : Int :=
  (data.getD (start + 1) 0 : Int) - (data.getD start 0 : Int)

/-- The extension loop of `is_delta_sequence`: from position `i`, count
positions with `data[i] == (data[i-1] + delta) & 0x7F` (two's-complement
bitwise AND on `int` = `emod 128`), stopping at the buffer end or after `fuel`
steps (`*length < 63` gives at most 61 steps beyond the initial 2). -/
def deltaExt (data : List Nat) (delta : Int) : Nat → Nat → Nat
  | _, 0 => 0
  | i, fuel + 1 =>
    if i < data.length ∧ (data.getD i 0 : Int) = ((data.getD (i - 1) 0 : Int) + delta).emod 128
    then deltaExt data delta (i + 1) fuel + 1
    else 0

/-- The `*length` output of `is_delta_sequence`: starts at 2, extended by the
loop (capped below 63). -/
def deltaLen (data : List Nat) (start : Nat) : Nat :=
  2 + deltaExt data (deltaOf data start) (start + 2) 61

/-- `bool is_delta_sequence(...)`: true iff `*length >= 3 && delta in [-15,15]`
(and the initial bounds test `start + 2 > data_size` did not bail out). -/
def is_delta_sequence (data : List Nat) (start : Nat) : Bool :=
  if start + 2 > data.length then false
  else decide (3 ≤ deltaLen data start ∧ -15 ≤ deltaOf data start ∧ deltaOf data start ≤ 15)

/-- The counting loop of `can_nibble_pack`: consecutive positions from `start`
holding bytes `< 16`, capped at 62 (`i < start + 62`). -/
def nibbleExt (data : List Nat) : Nat → Nat → Nat
  | _, 0 => 0
  | i, fuel + 1 =>
    if i < data.length ∧ data.getD i 0 < 16 then nibbleExt data (i + 1) fuel + 1 else 0

/-- The `*length` output of `can_nibble_pack`. -/
def nibbleLen (data : List Nat) (start : Nat) : Nat := nibbleExt data start 62

/-- `bool can_nibble_pack(...)`: `*length >= 4`. -/
def can_nibble_pack (data : List Nat) (start : Nat) : Bool :=
  decide (4 ≤ nibbleLen data start)

/-- `typedef struct { uint8_t pattern[16]; size_t length; size_t count; } Pattern` -/
structure Pattern where
  pattern : List Nat
  length : Nat
  count : Nat
deriving DecidableEq

/-- The inner loop of `find_pattern` counting how many further consecutive
copies of the `p`-byte unit at `start` appear from position `i`
(`i + p <= data_size` and `memcmp == 0`, else break).  Fuel `data.length`
suffices because each step advances `i` by `p ≥ 2`. -/
def patExt (data : List Nat) (start p : Nat) : Nat → Nat → Nat
  | _, 0 => 0
  | i, fuel + 1 =>
    if i + p ≤ data.length ∧ (data.drop i).take p = (data.drop start).take p
    then patExt data start p (i + p) fuel + 1
    else 0

/-- `matches` in `find_pattern`: 1 for the unit at `start` itself plus the
extension count. -/
def patMatches (data : List Nat) (start p : Nat) : Nat :=
  1 + patExt data start p (start + p) data.length

/-- The `for (pattern_len = 2; pattern_len <= 16 && start + pattern_len*2 <= data_size; ...)`
loop of `find_pattern`.  The score comparison is C `size_t` arithmetic:
`saved = matches*p - (2+p)` and `best_saved = best.count*best.length - (2+best.length)`
both wrap modulo `2^64` (for the zero-initialized `best` this makes
`best_saved = 2^64 - 2`, see `find_pattern_eq_init`). -/
def fpLoop (data : List Nat) (start : Nat) : Nat → Pattern → Nat → Pattern
  | _, best, 0 => best
  | p, best, fuel + 1 =>
    if p ≤ 16 ∧ start + p * 2 ≤ data.length then
      if 2 ≤ patMatches data start p ∧
          sub64 (patMatches data start p * p) (2 + p) >
            sub64 (best.count * best.length) (2 + best.length) then
        fpLoop data start (p + 1) ⟨(data.drop start).take p, p, patMatches data start p⟩ fuel
      else
        fpLoop data start (p + 1) best fuel
    else best

/-- `Pattern find_pattern(uint8_t* data, size_t start, size_t data_size)` with
`Pattern best = {0}` (the 16-byte `pattern` array zero-initialized). -/
def find_pattern (data : List Nat) (start : Nat) : Pattern :=
  fpLoop data start 2 ⟨List.replicate 16 0, 0, 0⟩ 15

/-- The literal-accumulation loop of `advanced_compress`: starting at `i`,
take bytes one at a time (at most 63), stopping when a forward run of ≥ 3
identical bytes starts (`ahead_run`, uncapped) or a delta sequence becomes
available at the cursor. -/
def litExt (data : List Nat) : Nat → Nat → Nat
  | _, 0 => 0
  | i, fuel + 1 =>
    if i < data.length then
      if 3 ≤ 1 + runExt data (data.getD i 0) (i + 1) data.length then 0
      else if is_delta_sequence data i then 0
      else litExt data (i + 1) fuel + 1
    else 0

/-- `literal_count` accumulated by the literal branch at cursor `pos`
(`literal_count < 63` caps the loop at 63 iterations). -/
def litLen (data : List Nat) (pos : Nat) : Nat := litExt data pos 63

/-- One emitted unit of the encoded format.  Each constructor records exactly
the data the corresponding emission site of `advanced_compress` writes
(`pat` keeps the whole 16-byte `pattern` field together with the `length` and
`count` fields, since the C code copies `length` bytes out of the field and
advances the cursor by `length * count`). -/
inductive Token where
  | lit (bs : List Nat)
  | run (v : Nat) (n : Nat)
  | commonRun (idx : Nat) (n : Nat)
  | zeroRun (n : Nat)
  | delta (s : Nat) (d : Int) (n : Nat)
  | nibble (vals : List Nat)
  | pat (field : List Nat) (plen : Nat) (count : Nat)
deriving DecidableEq

/-- Number of input bytes the token covers: how far `advanced_compress`
advances `in_pos` after emitting it. -/
def Token.cov : Token → Nat
  | .lit bs => bs.length
  | .run _ n => n
  | .commonRun _ n => n
  | .zeroRun n => n
  | .delta _ _ n => n
  | .nibble vals => vals.length
  | .pat _ plen count => plen * count

def Token.isLit : Token → Bool
  | .lit _ => true
  | _ => false

def Token.isRun : Token → Bool
  | .run _ _ => true
  | _ => false

def Token.isCommonRun : Token → Bool
  | .commonRun _ _ => true
  | _ => false

def Token.isZeroRun : Token → Bool
  | .zeroRun _ => true
  | _ => false

def Token.isDelta : Token → Bool
  | .delta _ _ _ => true
  | _ => false

def Token.isNibble : Token → Bool
  | .nibble _ => true
  | _ => false

def Token.isPat : Token → Bool
  | .pat _ _ _ => true
  | _ => false

/-- The nibble-packing emission loop: `(data[i*2] << 4) | data[i*2+1]` for each
pair, and for an odd count a final `data[last] << 4`, each stored into a
`uint8_t` (hence `% 256`). -/
def packNibbles : List Nat → List Nat
  | a :: b :: rest => ((a <<< 4 ||| b) % 256) :: packNibbles rest
  | [a] => [a <<< 4 % 256]
  | [] => []

/-- The bytes `advanced_compress` writes for one token.  Each `% 256` and
`.emod 256` is a C cast to `uint8_t` present in the source; `|||` is the C `|`. -/
def serializeToken : Token → List Nat
  | .lit bs => (MODE_LITERAL ||| bs.length % 256) :: bs
  | .run v n => [ MODE_RLE ||| n % 256, v]
  | .commonRun idx n => [EXT_COMMON_VAL, (n <<< 4 ||| idx) % 256]
  | .zeroRun n => [EXT_ZERO_RUN, n % 256]
  | .delta s d n => [ MODE_DELTA ||| n % 256, s, ((d + 16).emod 256).toNat]
  | .nibble vals => (MODE_NIBBLE ||| vals.length % 256) :: packNibbles vals
  | .pat field plen count =>
    EXT_PATTERN :: ((plen <<< 4 ||| count &&& 0x0F) % 256) :: field.take plen

/-- One iteration of the `while (in_pos < data_size)` loop of
`advanced_compress`: which token is emitted at cursor position `pos`.  The
branches appear in the source's priority order: zero run, delta sequence,
nibble pack, pattern, run (with the common-value sub-rule), literal. -/
def step (data : List Nat) (pos : Nat) : Token :=
  if data.getD pos 0 = 0 ∧ 3 ≤ 1 + runExt data 0 (pos + 1) 254 then
    .zeroRun (1 + runExt data 0 (pos + 1) 254)
  else if is_delta_sequence data pos then
    .delta (data.getD pos 0) (deltaOf data pos) (deltaLen data pos)
  else if can_nibble_pack data pos then
    .nibble ((data.drop pos).take (nibbleLen data pos))
  else if 2 ≤ (find_pattern data pos).count ∧ 2 ≤ (find_pattern data pos).length then
    .pat (find_pattern data pos).pattern (find_pattern data pos).length
      (find_pattern data pos).count
  else if 3 ≤ 1 + runExt data (data.getD pos 0) (pos + 1) 62 then
    if common_values.indexOf (data.getD pos 0) < NUM_COMMON_VALUES ∧
        1 + runExt data (data.getD pos 0) (pos + 1) 62 ≤ 15 then
      .commonRun (common_values.indexOf (data.getD pos 0))
        (1 + runExt data (data.getD pos 0) (pos + 1) 62)
    else
      .run (data.getD pos 0) (1 + runExt data (data.getD pos 0) (pos + 1) 62)
  else
    .lit ((data.drop pos).take (litLen data pos))

/-- The encoder's main loop as a token list: from cursor `pos`, emit
`step data pos` and advance by its coverage.  Fuel `data.length` is exactly
sufficient because every iteration advances the cursor by at least one
position (`c10_encoder_terminates`). -/
def encTokens (data : List Nat) : Nat → Nat → List Token
  | _, 0 => []
  | pos, fuel + 1 =>
    if pos < data.length then
      step data pos :: encTokens data (pos + (step data pos).cov) fuel
    else []

/-- The token sequence `advanced_compress` emits for `data`. -/
def advanced_compress_tokens (data : List Nat) : List Token :=
  encTokens data 0 data.length

/-- `size_t advanced_compress(uint8_t* data_ptr, size_t data_size)`: the bytes
written to the output buffer (the C function copies them back over the input
and returns their count; we return the list itself). -/
def advanced_compress (data : List Nat) : List Nat :=
  ((advanced_compress_tokens data).map serializeToken).flatten

/-- The `while (in_pos < compressed_size)` loop of `advanced_decompress`,
consuming the stream from the front.  Each iteration reads one control byte
and dispatches exactly as the source: the three sentinel equality tests first
(`EXT_ZERO_RUN`, `EXT_PATTERN`, `EXT_COMMON_VAL`), then the
`control & MODE_MASK` dispatch.  Any read the C code would perform past the
end of the stream, or past the end of the 8-entry `common_values` table, is
undefined behaviour in the source and yields `none` here.  One fuel unit per
iteration; `data.length` units always suffice since every iteration consumes
the control byte. -/
def decLoop : Nat → List Nat → Option (List Nat)
  | _, [] => some []
  | 0, _ :: _ => none
  | fuel + 1, control :: rest =>
    if control = EXT_ZERO_RUN then
      match rest with
      | [] => none
      | count :: rest2 =>
        (decLoop fuel rest2).map fun out => List.replicate count 0 ++ out
    else if control = EXT_PATTERN then
      match rest with
      | [] => none
      | info :: rest2 =>
        if info &&& 0x0F = 0 then
          decLoop fuel (rest2.drop (info >>> 4))
        else if info >>> 4 ≤ rest2.length then
          (decLoop fuel (rest2.drop (info >>> 4))).map fun out =>
            (List.replicate (info &&& 0x0F) (rest2.take (info >>> 4))).flatten ++ out
        else none
    else if control = EXT_COMMON_VAL then
      match rest with
      | [] => none
      | info :: rest2 =>
        if info &&& 0x0F < NUM_COMMON_VALUES then
          (decLoop fuel rest2).map fun out =>
            List.replicate (info >>> 4) (common_values.getD (info &&& 0x0F) 0) ++ out
        else none
    else if control &&& MODE_MASK = MODE_RLE then
      match rest with
      | [] => none
      | v :: rest2 =>
        (decLoop fuel rest2).map fun out => List.replicate (control &&& LENGTH_MASK) v ++ out
    else if control &&& MODE_MASK = MODE_DELTA then
      match rest with
      | s :: d :: rest2 =>
        (decLoop fuel rest2).map fun out =>
          (List.range (control &&& LENGTH_MASK)).map
            (fun i => (((s : Int) + (i : Int) * ((d : Int) - 16)).emod 128).toNat) ++ out
      | _ => none
    else if control &&& MODE_MASK = MODE_NIBBLE then
      if (control &&& LENGTH_MASK) / 2 + (control &&& LENGTH_MASK) % 2 ≤ rest.length then
        (decLoop fuel
            (rest.drop ((control &&& LENGTH_MASK) / 2 + (control &&& LENGTH_MASK) % 2))).map
          fun out =>
            ((rest.take ((control &&& LENGTH_MASK) / 2)).map
                (fun b => [b >>> 4, b &&& 0x0F])).flatten ++
              (if (control &&& LENGTH_MASK) % 2 = 1 then
                [rest.getD ((control &&& LENGTH_MASK) / 2) 0 >>> 4]
              else []) ++ out
      else none
    else
      if control &&& LENGTH_MASK ≤ rest.length then
        (decLoop fuel (rest.drop (control &&& LENGTH_MASK))).map fun out =>
          rest.take (control &&& LENGTH_MASK) ++ out
      else none

/-- `size_t advanced_decompress(uint8_t* data_ptr, size_t compressed_size)`:
the decoded bytes, or `none` when the C code would read out of bounds. -/
def advanced_decompress (data : List Nat) : Option (List Nat) :=
  decLoop data.length data

/-- The 24-byte worked example vector (`original_example` / `demo_data` in the
source's test driver, quoted by the spec). -/
def demoVec : List Nat :=
  [0x03, 0x74, 0x04, 0x04, 0x04, 0x35, 0x35, 0x64,
   0x64, 0x64, 0x64, 0x00, 0x00, 0x00, 0x00, 0x00,
   0x56, 0x45, 0x56, 0x56, 0x56, 0x09, 0x09, 0x09]

/-- A 2-byte unit (0x14, 0x5A) repeated 10 times: the pattern-selection test
input of claim C3.  Neither byte is below 16, the unit is not an arithmetic
progression with delta in [-15,15], and there are no runs of length ≥ 2. -/
def vec20 : List Nat :=
  [0x14, 0x5A, 0x14, 0x5A, 0x14, 0x5A, 0x14, 0x5A, 0x14, 0x5A,
   0x14, 0x5A, 0x14, 0x5A, 0x14, 0x5A, 0x14, 0x5A, 0x14, 0x5A]

/-- The 32-byte ramp 0,1,...,31: every value is below 128 and the whole buffer
is one delta sequence with delta 1 and length 32. -/
def ramp32 : List Nat := List.range 32

/-! ## Basic facts about the counting loops -/

theorem deltaExt_succ (data : List Nat) (d : Int) (i fuel : Nat) :
    deltaExt data d i (fuel + 1) =
      if i < data.length ∧ (data.getD i 0 : Int) = ((data.getD (i - 1) 0 : Int) + d).emod 128
      then deltaExt data d (i + 1) fuel + 1
      else 0 := rfl

theorem litExt_succ (data : List Nat) (i fuel : Nat) :
    litExt data i (fuel + 1) =
      if i < data.length then
        if 3 ≤ 1 + runExt data (data.getD i 0) (i + 1) data.length then 0
        else if is_delta_sequence data i then 0
        else litExt data (i + 1) fuel + 1
      else 0 := rfl

theorem runExt_le_fuel (data : List Nat) (v : Nat) : ∀ f i, runExt data v i f ≤ f := by
  intro f
  induction f with
  | zero => intro i; simp [runExt]
  | succ f ih =>
    intro i
    simp only [runExt]
    split
    · have := ih (i + 1); omega
    · omega

theorem runExt_spec (data : List Nat) (v : Nat) :
    ∀ f i j, j < runExt data v i f → i + j < data.length ∧ data.getD (i + j) 0 = v := by
  intro f
  induction f with
  | zero => intro i j h; simp [runExt] at h
  | succ f ih =>
    intro i j h
    simp only [runExt] at h
    split at h
    · rename_i hc
      cases j with
      | zero => simpa using hc
      | succ j =>
        have h2 := ih (i + 1) j (by omega)
        have e : i + (j + 1) = i + 1 + j := by omega
        rw [e]
        exact h2
    · omega

theorem runExt_full (data : List Nat) (v : Nat) :
    ∀ f i k, (∀ j < k, i + j < data.length ∧ data.getD (i + j) 0 = v) → k ≤ f →
      k ≤ runExt data v i f := by
  intro f
  induction f with
  | zero => intro i k _ hk; omega
  | succ f ih =>
    intro i k h hk
    cases k with
    | zero => omega
    | succ k =>
      have h0 := h 0 (by omega)
      simp only [Nat.add_zero] at h0
      simp only [runExt]
      rw [if_pos ⟨h0.1, h0.2⟩]
      have hrec := ih (i + 1) k
        (fun j hj => by
          have hx := h (j + 1) (by omega)
          have e : i + (j + 1) = i + 1 + j := by omega
          rw [e] at hx
          exact hx)
        (by omega)
      omega

theorem runExt_le_avail (data : List Nat) (v : Nat) :
    ∀ f i, i ≤ data.length → i + runExt data v i f ≤ data.length := by
  intro f
  induction f with
  | zero => intro i h; simpa [runExt]
  | succ f ih =>
    intro i h
    simp only [runExt]
    split
    · rename_i hc
      have := ih (i + 1) (by omega)
      omega
    · simpa

/-- Transfers a run of length 2 between fuel bounds. -/
theorem runExt_two_of_two (data : List Nat) (v : Nat) (i f g : Nat)
    (h2 : 2 ≤ runExt data v i f) (hg : 2 ≤ g) : 2 ≤ runExt data v i g :=
  runExt_full data v g i 2 (fun j hj => runExt_spec data v f i j (by omega)) hg

theorem deltaExt_le_fuel (data : List Nat) (d : Int) : ∀ f i, deltaExt data d i f ≤ f := by
  intro f
  induction f with
  | zero => intro i; simp [deltaExt]
  | succ f ih =>
    intro i
    simp only [deltaExt]
    split
    · have := ih (i + 1); omega
    · omega

theorem deltaExt_le_avail (data : List Nat) (d : Int) :
    ∀ f i, i ≤ data.length → i + deltaExt data d i f ≤ data.length := by
  intro f
  induction f with
  | zero => intro i h; simpa [deltaExt]
  | succ f ih =>
    intro i h
    simp only [deltaExt]
    split
    · rename_i hc
      have := ih (i + 1) (by omega)
      omega
    · simpa

theorem nibbleExt_le_fuel (data : List Nat) : ∀ f i, nibbleExt data i f ≤ f := by
  intro f
  induction f with
  | zero => intro i; simp [nibbleExt]
  | succ f ih =>
    intro i
    simp only [nibbleExt]
    split
    · have := ih (i + 1); omega
    · omega

theorem nibbleExt_le_avail (data : List Nat) :
    ∀ f i, i ≤ data.length → i + nibbleExt data i f ≤ data.length := by
  intro f
  induction f with
  | zero => intro i h; simpa [nibbleExt]
  | succ f ih =>
    intro i h
    simp only [nibbleExt]
    split
    · rename_i hc
      have := ih (i + 1) (by omega)
      omega
    · simpa

theorem litExt_le_fuel (data : List Nat) : ∀ f i, litExt data i f ≤ f := by
  intro f
  induction f with
  | zero => intro i; simp [litExt]
  | succ f ih =>
    intro i
    simp only [litExt]
    split
    · split
      · omega
      · split
        · omega
        · have := ih (i + 1); omega
    · omega

theorem litExt_le_avail (data : List Nat) :
    ∀ f i, i ≤ data.length → i + litExt data i f ≤ data.length := by
  intro f
  induction f with
  | zero => intro i h; simpa [litExt]
  | succ f ih =>
    intro i h
    simp only [litExt]
    split
    · rename_i hc
      split
      · omega
      · split
        · omega
        · have := ih (i + 1) (by omega)
          omega
    · simpa

theorem patExt_bound (data : List Nat) (start p : Nat) :
    ∀ f i, patExt data start p i f = 0 ∨ patExt data start p i f * p + i ≤ data.length := by
  intro f
  induction f with
  | zero => intro i; left; rfl
  | succ f ih =>
    intro i
    simp only [patExt]
    split
    · rename_i hc
      right
      rw [Nat.succ_mul]
      have hc1 := hc.1
      rcases ih (i + p) with h0 | hb
      · rw [h0]
        omega
      · omega
    · left; rfl

/-- A segment whose positions all hold `v` is a `replicate`. -/
theorem take_drop_eq_replicate (data : List Nat) (v : Nat) :
    ∀ n pos, pos + n ≤ data.length → (∀ j < n, data.getD (pos + j) 0 = v) →
      (data.drop pos).take n = List.replicate n v := by
  intro n
  induction n with
  | zero => intro pos _ _; simp
  | succ n ih =>
    intro pos hle h
    have hpos : pos < data.length := by omega
    rw [List.drop_eq_getElem_cons hpos, List.take_succ_cons, List.replicate_succ]
    congr 1
    · have h0 := h 0 (by omega)
      rw [Nat.add_zero] at h0
      rw [← h0, List.getD_eq_getElem data 0 hpos]
    · exact ih (pos + 1) (by omega)
        (fun j hj => by
          have hx := h (j + 1) (by omega)
          have e : pos + (j + 1) = pos + 1 + j := by omega
          rw [e] at hx
          exact hx)

/-! ## Facts about `find_pattern`

The candidate units counted by `patMatches` all lie inside the buffer, so the
genuine bytes saved by a candidate never exceed the buffer length.  Since the
zero-initialized `best` has `best_saved = (0*0) - (2+0)` computed in `size_t`,
i.e. `2^64 - 2`, no candidate's `saved` ever compares greater: `find_pattern`
always returns the zero-initialized `Pattern` (for any buffer that fits in a
C `size_t`). -/

theorem patMatches_mul_le (data : List Nat) (start p : Nat)
    (hguard : start + p * 2 ≤ data.length) :
    patMatches data start p * p + start ≤ data.length := by
  unfold patMatches
  rcases patExt_bound data start p data.length (start + p) with h0 | hb
  · rw [h0]
    omega
  · rw [Nat.add_mul, Nat.one_mul]
    omega

theorem fpLoop_bound (data : List Nat) (start : Nat) :
    ∀ fuel p best,
      (best.count * best.length + start ≤ data.length ∨ best.count = 0) →
      ((fpLoop data start p best fuel).count * (fpLoop data start p best fuel).length + start
          ≤ data.length ∨
        (fpLoop data start p best fuel).count = 0) := by
  intro fuel
  induction fuel with
  | zero => intro p best h; simpa [fpLoop]
  | succ fuel ih =>
    intro p best h
    simp only [fpLoop]
    split
    · rename_i hg
      split
      · rename_i hupd
        apply ih
        left
        exact patMatches_mul_le data start p hg.2
      · exact ih _ _ h
    · simpa using h

theorem find_pattern_bound (data : List Nat) (start : Nat) :
    (find_pattern data start).count * (find_pattern data start).length + start ≤ data.length ∨
      (find_pattern data start).count = 0 :=
  fpLoop_bound data start 15 2 ⟨List.replicate 16 0, 0, 0⟩ (Or.inr rfl)

theorem fpLoop_frozen (data : List Nat) (start : Nat) (hlen : data.length < SZ) :
    ∀ fuel p, 2 ≤ p →
      fpLoop data start p ⟨List.replicate 16 0, 0, 0⟩ fuel = ⟨List.replicate 16 0, 0, 0⟩ := by
  intro fuel
  induction fuel with
  | zero => intro p _; rfl
  | succ fuel ih =>
    intro p hp
    simp only [fpLoop]
    split
    · rename_i hg
      rw [if_neg, ih (p + 1) (by omega)]
      rintro ⟨h2, hgt⟩
      have hmp : patMatches data start p * p + start ≤ data.length :=
        patMatches_mul_le data start p hg.2
      have hp16 : p ≤ 16 := hg.1
      have hszlit : SZ = 2 ^ 64 := rfl
      have hle2p : 2 + p ≤ patMatches data start p * p := by
        have h2p : 2 * p ≤ patMatches data start p * p := Nat.mul_le_mul_right p h2
        omega
      have hmplt : patMatches data start p * p < SZ := by
        rw [hszlit]; rw [hszlit] at hlen; omega
      have e1 : sub64 (patMatches data start p * p) (2 + p) =
          patMatches data start p * p - (2 + p) := by
        unfold sub64
        rw [Nat.mod_eq_of_lt (a := 2 + p) (by rw [hszlit]; omega)]
        have e : patMatches data start p * p + (SZ - (2 + p)) =
            SZ + (patMatches data start p * p - (2 + p)) := by
          rw [hszlit]; rw [hszlit] at hmplt; omega
        rw [e, Nat.add_mod_left, Nat.mod_eq_of_lt (by rw [hszlit]; rw [hszlit] at hmplt; omega)]
      have e2 : sub64 ((⟨List.replicate 16 0, 0, 0⟩ : Pattern).count *
            (⟨List.replicate 16 0, 0, 0⟩ : Pattern).length)
          (2 + (⟨List.replicate 16 0, 0, 0⟩ : Pattern).length) = SZ - 2 := by
        show sub64 (0 * 0) (2 + 0) = SZ - 2
        unfold sub64
        rw [Nat.zero_mul, Nat.mod_eq_of_lt (a := 2 + 0) (by rw [hszlit]; omega), Nat.zero_add,
          Nat.mod_eq_of_lt (by rw [hszlit]; omega)]
      rw [e1, e2] at hgt
      rw [hszlit] at hgt hmplt
      omega
    · rfl

theorem find_pattern_eq_init (data : List Nat) (start : Nat) (hlen : data.length < SZ) :
    find_pattern data start = ⟨List.replicate 16 0, 0, 0⟩ :=
  fpLoop_frozen data start hlen 15 2 (by omega)

/-! ## Inversion and coverage facts about the encoder's `step` -/

theorem is_delta_elim (data : List Nat) (pos : Nat) (h : is_delta_sequence data pos = true) :
    pos + 2 ≤ data.length ∧ 3 ≤ deltaLen data pos ∧
      -15 ≤ deltaOf data pos ∧ deltaOf data pos ≤ 15 := by
  unfold is_delta_sequence at h
  split at h
  · simp at h
  · rename_i hb
    simp only [decide_eq_true_eq] at h
    exact ⟨by omega, h⟩

/-- A run of at least 3 equal bytes whose value is below 128 is accepted by
`is_delta_sequence` (with delta 0): this is why the RLE branch of the encoder
never sees such runs. -/
theorem delta_of_run (data : List Nat) (pos : Nat)
    (hlt : data.getD pos 0 < 128)
    (hrun : 2 ≤ runExt data (data.getD pos 0) (pos + 1) 62) :
    is_delta_sequence data pos = true := by
  have h0 := runExt_spec data (data.getD pos 0) 62 (pos + 1) 0 (by omega)
  have h1 := runExt_spec data (data.getD pos 0) 62 (pos + 1) 1 (by omega)
  rw [Nat.add_zero] at h0
  have e12 : pos + 1 + 1 = pos + 2 := by omega
  rw [e12] at h1
  have hd0 : deltaOf data pos = 0 := by
    unfold deltaOf
    rw [h0.2]
    omega
  have hext : 1 ≤ deltaExt data (deltaOf data pos) (pos + 2) 61 := by
    rw [hd0]
    rw [show (61 : Nat) = 60 + 1 from rfl, deltaExt_succ]
    rw [if_pos]
    · omega
    · refine ⟨h1.1, ?_⟩
      have e : pos + 2 - 1 = pos + 1 := by omega
      rw [e, h1.2, h0.2, Int.add_zero]
      exact (Int.emod_eq_of_lt (Int.natCast_nonneg _) (by exact_mod_cast hlt)).symm
  unfold is_delta_sequence
  rw [if_neg (by omega)]
  simp only [decide_eq_true_eq]
  refine ⟨?_, by rw [hd0]; omega, by rw [hd0]; omega⟩
  unfold deltaLen
  omega

theorem step_lit_inv (data : List Nat) (pos : Nat) (bs : List Nat)
    (h : step data pos = .lit bs) :
    bs = (data.drop pos).take (litLen data pos) ∧
      ¬ 3 ≤ 1 + runExt data (data.getD pos 0) (pos + 1) 62 ∧
      is_delta_sequence data pos = false := by
  unfold step at h
  split_ifs at h with h1 h2 h3 h4 h5 h6 <;> simp only [Token.lit.injEq] at h
  exact ⟨h.symm, h5, by simpa using h2⟩

theorem step_zero_inv (data : List Nat) (pos : Nat) (n : Nat)
    (h : step data pos = .zeroRun n) :
    data.getD pos 0 = 0 ∧ n = 1 + runExt data 0 (pos + 1) 254 ∧ 3 ≤ n := by
  unfold step at h
  split_ifs at h with h1 h2 h3 h4 h5 h6 <;> simp only [Token.zeroRun.injEq] at h
  exact ⟨h1.1, h.symm, by omega⟩

theorem step_delta_inv (data : List Nat) (pos : Nat) (s : Nat) (d : Int) (n : Nat)
    (h : step data pos = .delta s d n) :
    s = data.getD pos 0 ∧ d = deltaOf data pos ∧ n = deltaLen data pos ∧
      is_delta_sequence data pos = true := by
  unfold step at h
  split_ifs at h with h1 h2 h3 h4 h5 h6 <;> simp only [Token.delta.injEq] at h
  exact ⟨h.1.symm, h.2.1.symm, h.2.2.symm, h2⟩

theorem step_run_inv (data : List Nat) (pos : Nat) (v n : Nat)
    (h : step data pos = .run v n) :
    v = data.getD pos 0 ∧ n = 1 + runExt data (data.getD pos 0) (pos + 1) 62 ∧ 3 ≤ n ∧
      ¬ (data.getD pos 0 = 0 ∧ 3 ≤ 1 + runExt data 0 (pos + 1) 254) ∧
      is_delta_sequence data pos = false := by
  unfold step at h
  split_ifs at h with h1 h2 h3 h4 h5 h6 <;> simp only [Token.run.injEq] at h
  exact ⟨h.1.symm, h.2.symm, by omega, h1, by simpa using h2⟩

theorem step_common_inv (data : List Nat) (pos : Nat) (idx n : Nat)
    (h : step data pos = .commonRun idx n) :
    idx = common_values.indexOf (data.getD pos 0) ∧ idx < NUM_COMMON_VALUES ∧
      n = 1 + runExt data (data.getD pos 0) (pos + 1) 62 ∧ 3 ≤ n ∧ n ≤ 15 ∧
      ¬ (data.getD pos 0 = 0 ∧ 3 ≤ 1 + runExt data 0 (pos + 1) 254) ∧
      is_delta_sequence data pos = false := by
  unfold step at h
  split_ifs at h with h1 h2 h3 h4 h5 h6 <;> simp only [Token.commonRun.injEq] at h
  refine ⟨h.1.symm, ?_, h.2.symm, by omega, by omega, h1, by simpa using h2⟩
  rw [← h.1]
  exact h6.1

theorem step_pat_inv (data : List Nat) (pos : Nat) (fl : List Nat) (p c : Nat)
    (h : step data pos = .pat fl p c) :
    2 ≤ (find_pattern data pos).count := by
  unfold step at h
  split_ifs at h with h1 h2 h3 h4 h5 h6 <;> simp only [Token.pat.injEq] at h
  exact h4.1

theorem step_nibble_inv (data : List Nat) (pos : Nat) (vals : List Nat)
    (h : step data pos = .nibble vals) :
    vals = (data.drop pos).take (nibbleLen data pos) ∧ 4 ≤ nibbleLen data pos := by
  unfold step at h
  split_ifs at h with h1 h2 h3 h4 h5 h6 <;> simp only [Token.nibble.injEq] at h
  exact ⟨h.symm, by simpa [can_nibble_pack] using h3⟩

/-- When the run and delta strategies have both declined at an in-bounds
cursor position, the literal loop accumulates at least one byte. -/
theorem litLen_pos (data : List Nat) (pos : Nat) (hpos : pos < data.length)
    (hrun : ¬ 3 ≤ 1 + runExt data (data.getD pos 0) (pos + 1) 62)
    (hdelta : is_delta_sequence data pos = false) :
    1 ≤ litLen data pos := by
  unfold litLen
  rw [show (63 : Nat) = 62 + 1 from rfl, litExt_succ]
  rw [if_pos hpos, if_neg, if_neg (by simp [hdelta])]
  · omega
  · intro hful
    apply hrun
    have h2 : 2 ≤ runExt data (data.getD pos 0) (pos + 1) data.length := by omega
    have := runExt_two_of_two data (data.getD pos 0) (pos + 1) data.length 62 h2 (by omega)
    omega

theorem step_cov_pos (data : List Nat) (pos : Nat) (hpos : pos < data.length) :
    1 ≤ (step data pos).cov := by
  unfold step
  split_ifs with h1 h2 h3 h4 h5 h6 <;> simp only [Token.cov]
  · omega
  · unfold deltaLen; omega
  · rw [List.length_take, List.length_drop]
    have h3x : 4 ≤ nibbleLen data pos := by simpa [can_nibble_pack] using h3
    omega
  · have := Nat.mul_le_mul h4.2 h4.1
    omega
  · omega
  · omega
  · rw [List.length_take, List.length_drop]
    have := litLen_pos data pos hpos h5 (by simpa using h2)
    omega

theorem step_cov_le (data : List Nat) (pos : Nat) (hpos : pos < data.length) :
    pos + (step data pos).cov ≤ data.length := by
  unfold step
  split_ifs with h1 h2 h3 h4 h5 h6 <;> simp only [Token.cov]
  · have := runExt_le_avail data 0 254 (pos + 1) (by omega)
    omega
  · obtain ⟨hb, -, -, -⟩ := is_delta_elim data pos h2
    unfold deltaLen
    have := deltaExt_le_avail data (deltaOf data pos) 61 (pos + 2) (by omega)
    omega
  · rw [List.length_take, List.length_drop]; omega
  · rcases find_pattern_bound data pos with hb | h0
    · rw [Nat.mul_comm]
      omega
    · omega
  · have := runExt_le_avail data (data.getD pos 0) 62 (pos + 1) (by omega)
    omega
  · have := runExt_le_avail data (data.getD pos 0) 62 (pos + 1) (by omega)
    omega
  · rw [List.length_take, List.length_drop]; omega

theorem packNibbles_length : ∀ l : List Nat, (packNibbles l).length = (l.length + 1) / 2
  | [] => by simp [packNibbles]
  | [a] => by simp [packNibbles]
  | a :: b :: rest => by
    simp only [packNibbles, List.length_cons]
    rw [packNibbles_length rest]
    omega

/-- Every token costs at most twice the input bytes it covers. -/
theorem ser_le_two_cov (data : List Nat) (pos : Nat) (hpos : pos < data.length) :
    (serializeToken (step data pos)).length ≤ 2 * (step data pos).cov := by
  unfold step
  split_ifs with h1 h2 h3 h4 h5 h6 <;>
    simp only [serializeToken, Token.cov, List.length_cons, List.length_nil]
  · omega
  · unfold deltaLen; omega
  · rw [packNibbles_length, List.length_take, List.length_drop]
    have h3x : 4 ≤ nibbleLen data pos := by simpa [can_nibble_pack] using h3
    unfold nibbleLen at h3x ⊢
    have := nibbleExt_le_avail data 62 pos (by omega)
    omega
  · have hfl : ((find_pattern data pos).pattern.take (find_pattern data pos).length).length ≤
        (find_pattern data pos).length := by
      rw [List.length_take]; omega
    have hcnt : (find_pattern data pos).length * 2 ≤
        (find_pattern data pos).length * (find_pattern data pos).count :=
      Nat.mul_le_mul_left _ h4.1
    have h42 := h4.2
    omega
  · omega
  · omega
  · rw [List.length_take, List.length_drop]
    have := litLen_pos data pos hpos h5 (by simpa using h2)
    omega

/-- Membership in the palette from a successful index search. -/
theorem common_mem_of_indexOf_lt (v : Nat)
    (h : common_values.indexOf v < NUM_COMMON_VALUES) : v ∈ common_values := by
  by_contra hc
  have he := List.indexOf_eq_length.2 hc
  rw [he] at h
  have e1 : common_values.length = 8 := rfl
  have e2 : NUM_COMMON_VALUES = 8 := rfl
  omega

/-- Looking the found index back up returns the searched value. -/
theorem common_getD_indexOf (v : Nat) (h : v ∈ common_values) :
    common_values.getD (common_values.indexOf v) 0 = v := by
  have h2 : v = 0 ∨ v = 1 ∨ v = 2 ∨ v = 3 ∨ v = 4 ∨ v = 0xFF ∨ v = 0x7F ∨ v = 0x20 := by
    simpa [common_values] using h
  rcases h2 with rfl | rfl | rfl | rfl | rfl | rfl | rfl | rfl <;> decide

/-! ## The encoder's main loop: size bound, termination, membership -/

theorem encBytes_le (data : List Nat) :
    ∀ fuel pos, data.length - pos ≤ fuel →
      (((encTokens data pos fuel).map serializeToken).flatten).length ≤
        2 * (data.length - pos) := by
  intro fuel
  induction fuel with
  | zero => intro pos h; simp [encTokens]
  | succ fuel ih =>
    intro pos h
    simp only [encTokens]
    split
    · rename_i hpos
      simp only [List.map_cons, List.flatten_cons, List.length_append]
      have hc1 := step_cov_pos data pos hpos
      have hcle := step_cov_le data pos hpos
      have hser := ser_le_two_cov data pos hpos
      have hih := ih (pos + (step data pos).cov) (by omega)
      omega
    · simp

theorem covSum_eq (data : List Nat) :
    ∀ fuel pos, data.length - pos ≤ fuel →
      ((encTokens data pos fuel).map Token.cov).sum = data.length - pos := by
  intro fuel
  induction fuel with
  | zero =>
    intro pos h
    simp only [encTokens, List.map_nil, List.sum_nil]
    omega
  | succ fuel ih =>
    intro pos h
    simp only [encTokens]
    split
    · rename_i hpos
      simp only [List.map_cons, List.sum_cons]
      have hc1 := step_cov_pos data pos hpos
      have hcle := step_cov_le data pos hpos
      have hih := ih (pos + (step data pos).cov) (by omega)
      omega
    · rename_i hpos
      simp only [List.map_nil, List.sum_nil]
      omega

theorem encTokens_mem (data : List Nat) :
    ∀ fuel pos t, t ∈ encTokens data pos fuel → ∃ q, t = step data q := by
  intro fuel
  induction fuel with
  | zero => intro pos t h; simp [encTokens] at h
  | succ fuel ih =>
    intro pos t h
    simp only [encTokens] at h
    split at h
    · rcases List.mem_cons.1 h with rfl | hmem
      · exact ⟨pos, rfl⟩
      · exact ih _ t hmem
    · simp at h

theorem ser_len_pos (t : Token) : 1 ≤ (serializeToken t).length := by
  cases t <;> simp [serializeToken]

theorem flatten_len_ge (l : List Token) :
    l.length ≤ ((l.map serializeToken).flatten).length := by
  induction l with
  | nil => simp
  | cons t ts ih =>
    simp only [List.map_cons, List.flatten_cons, List.length_append, List.length_cons]
    have := ser_len_pos t
    omega

/-! ## Decoding the serialized form of each non-arithmetic token

The control bytes of literal and run tokens never collide with the sentinel
escapes, and mask extraction recovers their length fields; the info byte of a
CommonRun or serialized count of a ZeroRun fits its field.  Each lemma shows
the decoder consumes exactly one serialized token and prepends its expansion. -/

theorem litCtrl : ∀ n < 64,
    (MODE_LITERAL ||| n % 256) = n ∧
      n ≠ EXT_ZERO_RUN ∧ n ≠ EXT_PATTERN ∧ n ≠ EXT_COMMON_VAL ∧
      n &&& MODE_MASK ≠ MODE_RLE ∧ n &&& MODE_MASK ≠ MODE_DELTA ∧
      n &&& MODE_MASK ≠ MODE_NIBBLE ∧ n &&& LENGTH_MASK = n := by decide

theorem runCtrl : ∀ n < 64,
    (MODE_RLE ||| n % 256) ≠ EXT_ZERO_RUN ∧ (MODE_RLE ||| n % 256) ≠ EXT_PATTERN ∧
      (MODE_RLE ||| n % 256) ≠ EXT_COMMON_VAL ∧
      (MODE_RLE ||| n % 256) &&& MODE_MASK = MODE_RLE ∧
      (MODE_RLE ||| n % 256) &&& LENGTH_MASK = n := by decide

theorem infoCtrl : ∀ a < 16, ∀ b < 16,
    ((a <<< 4 ||| b) % 256) >>> 4 = a ∧ ((a <<< 4 ||| b) % 256) &&& 0x0F = b := by decide

theorem dec_lit (bs rest : List Nat) (fuel : Nat) (h : bs.length < 64) :
    decLoop (fuel + 1) (serializeToken (.lit bs) ++ rest) =
      (decLoop fuel rest).map fun out => bs ++ out := by
  obtain ⟨e0, e1, e2, e3, e4, e5, e6, e7⟩ := litCtrl bs.length h
  simp only [serializeToken, List.cons_append]
  rw [e0]
  simp only [decLoop]
  rw [if_neg e1, if_neg e2, if_neg e3, if_neg e4, if_neg e5, if_neg e6, e7]
  rw [if_pos (by simp)]
  rw [List.take_left, List.drop_left]

theorem dec_run (v n : Nat) (rest : List Nat) (fuel : Nat) (h : n < 64) :
    decLoop (fuel + 1) (serializeToken (.run v n) ++ rest) =
      (decLoop fuel rest).map fun out => List.replicate n v ++ out := by
  obtain ⟨e1, e2, e3, e4, e5⟩ := runCtrl n h
  simp only [serializeToken, List.cons_append, List.nil_append]
  simp only [decLoop]
  rw [if_neg e1, if_neg e2, if_neg e3, if_pos e4, e5]

theorem dec_zero (n : Nat) (rest : List Nat) (fuel : Nat) (h : n ≤ 255) :
    decLoop (fuel + 1) (serializeToken (.zeroRun n) ++ rest) =
      (decLoop fuel rest).map fun out => List.replicate n 0 ++ out := by
  simp only [serializeToken, List.cons_append, List.nil_append]
  simp only [decLoop, eq_self_iff_true, if_true]
  rw [Nat.mod_eq_of_lt (by omega)]

theorem dec_common (idx n : Nat) (rest : List Nat) (fuel : Nat) (hi : idx < 8) (hn : n < 16) :
    decLoop (fuel + 1) (serializeToken (.commonRun idx n) ++ rest) =
      (decLoop fuel rest).map fun out =>
        List.replicate n (common_values.getD idx 0) ++ out := by
  obtain ⟨e1, e2⟩ := infoCtrl n hn idx (by omega)
  simp only [serializeToken, List.cons_append, List.nil_append]
  simp only [decLoop, eq_self_iff_true, if_true]
  rw [if_neg (show ¬ EXT_COMMON_VAL = EXT_ZERO_RUN by decide),
    if_neg (show ¬ EXT_COMMON_VAL = EXT_PATTERN by decide), e2, e1]
  rw [if_pos (show idx < NUM_COMMON_VALUES from hi)]

/-- The decoder consumes the serialization of one encoder step exactly and
reproduces the covered input segment, for the token kinds that carry their
bytes verbatim (no delta and no nibble token; a pattern token is impossible in
a buffer that fits a `size_t`, by `find_pattern_eq_init`). -/
theorem step_decode (data : List Nat) (pos : Nat) (hpos : pos < data.length)
    (hlen : data.length < SZ)
    (hd : (step data pos).isDelta = false) (hn : (step data pos).isNibble = false)
    (rest : List Nat) (fuel : Nat) :
    decLoop (fuel + 1) (serializeToken (step data pos) ++ rest) =
      (decLoop fuel rest).map fun out =>
        (data.drop pos).take (step data pos).cov ++ out := by
  cases hstep : step data pos with
  | lit bs =>
    obtain ⟨hbs, -, -⟩ := step_lit_inv data pos bs hstep
    have hb64 : bs.length < 64 := by
      rw [hbs, List.length_take]
      have : litLen data pos ≤ 63 := litExt_le_fuel data 63 pos
      omega
    rw [dec_lit bs rest fuel hb64]
    have hseg : (data.drop pos).take (Token.lit bs).cov = bs := by
      simp only [Token.cov]
      rw [hbs, List.length_take, List.take_eq_take]
      simp only [List.length_drop]
      omega
    rw [hseg]
  | run v n =>
    obtain ⟨hv, hn2, h3, -, -⟩ := step_run_inv data pos v n hstep
    have h64 : n < 64 := by
      have := runExt_le_fuel data (data.getD pos 0) 62 (pos + 1)
      omega
    rw [dec_run v n rest fuel h64]
    have hall : ∀ j < n, data.getD (pos + j) 0 = v := by
      intro j hj
      cases j with
      | zero => rw [Nat.add_zero, hv]
      | succ j =>
        have hs := (runExt_spec data (data.getD pos 0) 62 (pos + 1) j (by omega)).2
        rw [hv, show pos + (j + 1) = pos + 1 + j by omega]
        exact hs
    have hle : pos + n ≤ data.length := by
      have := runExt_le_avail data (data.getD pos 0) 62 (pos + 1) (by omega)
      omega
    have hseg := take_drop_eq_replicate data v n pos hle hall
    simp only [Token.cov]
    rw [hseg]
  | commonRun idx n =>
    obtain ⟨hidx, hlt8, hn2, h3, h15, -, -⟩ := step_common_inv data pos idx n hstep
    have hlt8n : idx < 8 := by
      have e : NUM_COMMON_VALUES = 8 := rfl
      omega
    rw [dec_common idx n rest fuel hlt8n (by omega)]
    have hmem : data.getD pos 0 ∈ common_values := by
      apply common_mem_of_indexOf_lt
      rw [← hidx]
      exact hlt8
    have hval : common_values.getD idx 0 = data.getD pos 0 := by
      rw [hidx]
      exact common_getD_indexOf _ hmem
    have hall : ∀ j < n, data.getD (pos + j) 0 = data.getD pos 0 := by
      intro j hj
      cases j with
      | zero => rw [Nat.add_zero]
      | succ j =>
        have hs := (runExt_spec data (data.getD pos 0) 62 (pos + 1) j (by omega)).2
        rw [show pos + (j + 1) = pos + 1 + j by omega]
        exact hs
    have hle : pos + n ≤ data.length := by
      have := runExt_le_avail data (data.getD pos 0) 62 (pos + 1) (by omega)
      omega
    have hseg := take_drop_eq_replicate data (data.getD pos 0) n pos hle hall
    simp only [Token.cov]
    rw [hval, hseg]
  | zeroRun n =>
    obtain ⟨h0, hn2, h3⟩ := step_zero_inv data pos n hstep
    have h255 : n ≤ 255 := by
      have := runExt_le_fuel data 0 254 (pos + 1)
      omega
    rw [dec_zero n rest fuel h255]
    have hall : ∀ j < n, data.getD (pos + j) 0 = 0 := by
      intro j hj
      cases j with
      | zero => rw [Nat.add_zero]; exact h0
      | succ j =>
        have hs := (runExt_spec data 0 254 (pos + 1) j (by omega)).2
        rw [show pos + (j + 1) = pos + 1 + j by omega]
        exact hs
    have hle : pos + n ≤ data.length := by
      have := runExt_le_avail data 0 254 (pos + 1) (by omega)
      omega
    have hseg := take_drop_eq_replicate data 0 n pos hle hall
    simp only [Token.cov]
    rw [hseg]
  | delta s d n =>
    rw [hstep] at hd
    simp [Token.isDelta] at hd
  | nibble vals =>
    rw [hstep] at hn
    simp [Token.isNibble] at hn
  | pat fl p c =>
    have h2 := step_pat_inv data pos fl p c hstep
    rw [find_pattern_eq_init data pos hlen] at h2
    simp at h2

/-- Decoding the serialized encoder output from cursor `pos`, followed by any
`rest`, reproduces the remaining input followed by the decode of `rest`. -/
theorem enc_decode (data : List Nat) (hlen : data.length < SZ) :
    ∀ fuel pos rest fuelD,
      data.length - pos ≤ fuel →
      (∀ t ∈ encTokens data pos fuel, t.isDelta = false ∧ t.isNibble = false) →
      decLoop ((encTokens data pos fuel).length + fuelD)
          (((encTokens data pos fuel).map serializeToken).flatten ++ rest) =
        (decLoop fuelD rest).map fun out => data.drop pos ++ out := by
  intro fuel
  induction fuel with
  | zero =>
    intro pos rest fuelD h htok
    simp only [encTokens, List.map_nil, List.flatten_nil, List.length_nil, List.nil_append,
      Nat.zero_add]
    have hde : data.drop pos = [] := List.drop_eq_nil_of_le (by omega)
    rw [hde]
    cases decLoop fuelD rest <;> simp
  | succ fuel ih =>
    intro pos rest fuelD h htok
    by_cases hpos : pos < data.length
    · simp only [encTokens] at htok ⊢
      rw [if_pos hpos] at htok ⊢
      simp only [List.map_cons, List.flatten_cons, List.length_cons, List.append_assoc]
      have hhd := htok (step data pos) (List.mem_cons_self _ _)
      rw [show (encTokens data (pos + (step data pos).cov) fuel).length + 1 + fuelD =
            (encTokens data (pos + (step data pos).cov) fuel).length + fuelD + 1 by omega]
      rw [step_decode data pos hpos hlen hhd.1 hhd.2 _ _]
      rw [ih (pos + (step data pos).cov) rest fuelD
          (by have := step_cov_pos data pos hpos; omega)
          (fun t ht => htok t (List.mem_cons_of_mem _ ht))]
      cases decLoop fuelD rest with
      | none => rfl
      | some out =>
        simp only [Option.map_some']
        rw [← List.append_assoc, List.drop_take_append_drop]
    · simp only [encTokens]
      rw [if_neg hpos]
      simp only [List.map_nil, List.flatten_nil, List.length_nil, List.nil_append, Nat.zero_add]
      have hde : data.drop pos = [] := List.drop_eq_nil_of_le (by omega)
      rw [hde]
      cases decLoop fuelD rest <;> simp

/-- Any CommonRun token the encoder can emit indexes the palette entry 0xFF:
every other palette value is below 128, so a run of it long enough for the
RLE branch is claimed earlier by the zero-run branch or by the delta branch
with delta 0. -/
theorem step_common_ff (data : List Nat) (q idx n : Nat)
    (h : step data q = .commonRun idx n) : common_values.getD idx 0 = 0xFF := by
  obtain ⟨hidx, hlt8, hn2, h3, h15, hz, hdelta⟩ := step_common_inv data q idx n h
  have hrun2 : 2 ≤ runExt data (data.getD q 0) (q + 1) 62 := by omega
  have hmem : data.getD q 0 ∈ common_values := by
    apply common_mem_of_indexOf_lt
    rw [← hidx]
    exact hlt8
  have hval : common_values.getD idx 0 = data.getD q 0 := by
    rw [hidx]
    exact common_getD_indexOf _ hmem
  rw [hval]
  have habs : data.getD q 0 < 128 → False := by
    intro hlt
    have ht := delta_of_run data q hlt hrun2
    rw [ht] at hdelta
    simp at hdelta
  have hcases : data.getD q 0 = 0 ∨ data.getD q 0 = 1 ∨ data.getD q 0 = 2 ∨
      data.getD q 0 = 3 ∨ data.getD q 0 = 4 ∨ data.getD q 0 = 0xFF ∨
      data.getD q 0 = 0x7F ∨ data.getD q 0 = 0x20 := by
    simpa [common_values] using hmem
  rcases hcases with hc | hc | hc | hc | hc | hc | hc | hc
  · exact (habs (by omega)).elim
  · exact (habs (by omega)).elim
  · exact (habs (by omega)).elim
  · exact (habs (by omega)).elim
  · exact (habs (by omega)).elim
  · exact hc
  · exact (habs (by omega)).elim
  · exact (habs (by omega)).elim

/-! ## The claims -/

/-- C1.  The claim asserts: for every byte sequence with all values in 0..127,
`decode(encode(x)) = x`.  The code violates it: on the 32-byte ramp
0,1,...,31 (all below 128) the encoder emits one Delta token of length 32
whose control byte `MODE_DELTA | 32 = 0xE0` is exactly the Pattern sentinel,
so the decoder misparses the stream (it reads an empty pattern and then a
17-byte literal that runs past the end of the 3-byte stream). -/
theorem c1_delta_sentinel_collision :
    (∀ b ∈ ramp32, b < 128) ∧
      advanced_compress_tokens ramp32 = [Token.delta 0 1 32] ∧
      advanced_compress ramp32 = [EXT_PATTERN, 0x00, 0x11] ∧
      advanced_decompress (advanced_compress ramp32) = none := by decide

/-- C2.  The claim asserts the decoder fails with `FormatError::Truncated` on
a truncated stream.  The code has no such error path: on the stream
`[0xC3, 0x00]` (a Delta control byte demanding 2 trailing bytes with only 1
supplied) it reads past the end of the buffer — undefined behaviour, modelled
here as the out-of-bounds result `none`, not a typed truncation error. -/
theorem c2_truncated_read_past_end :
    advanced_decompress [ MODE_DELTA ||| 3, 0x00] = none := by decide

/-- C3.  The claim asserts that for a 2-byte unit repeated 10 times the
encoder emits a Pattern token with unit length 2 and count 10, maximising
`count*p - (2+p)`.  The code cannot: `find_pattern` compares every candidate's
score against the zero-initialized best, whose `best_saved` is computed in
`size_t` as `(0*0) - (2+0) = 2^64 - 2`, so no candidate ever wins.  On the
20-byte input there are 10 matches of the 2-byte unit, yet `find_pattern`
returns count 0 and the encoder emits a single 20-byte Literal token. -/
theorem c3_find_pattern_dead :
    patMatches vec20 0 2 = 10 ∧ (find_pattern vec20 0).count = 0 ∧
      advanced_compress_tokens vec20 = [Token.lit vec20] := by decide

/-- C4 (counterexample).  The claim asserts the four 0x64 bytes of the worked
vector are emitted as a Run token.  They are not: no Run token at all occurs
in the encoding of the vector; the span is covered by a Delta token with
delta 0 and length 4 (0x64 < 128, so the higher-priority delta strategy
claims the run). -/
theorem c4_counterexample :
    ((advanced_compress_tokens demoVec).all fun t => ! t.isRun) = true ∧
      Token.delta 0x64 0 4 ∈ advanced_compress_tokens demoVec := by decide

/-- C4 (amended).  For the 24-byte worked vector, the five zeros are emitted
as a ZeroRun token of length 5, and the four 0x64 bytes as a Delta token with
start 0x64, delta 0 and length 4 (not a Run token, and not a CommonRun);
encode-then-decode reproduces the vector. -/
theorem c4_worked_vector_tokens :
    advanced_compress_tokens demoVec =
      [Token.lit [0x03, 0x74], Token.delta 0x04 0 3, Token.lit [0x35, 0x35],
        Token.delta 0x64 0 4, Token.zeroRun 5, Token.lit [0x56, 0x45],
        Token.delta 0x56 0 3, Token.delta 0x09 0 3] ∧
      advanced_decompress (advanced_compress demoVec) = some demoVec := by decide

/-- C5.  Round trip over the full alphabet for the non-arithmetic token paths:
for every input whose encoding consists only of Literal, Run, CommonRun,
ZeroRun and Pattern tokens (no Delta, no Nibble), decoding the encoder's
output yields the original bytes exactly, for byte values 0..255.  (The
buffer-length bound is the C `size_t` range.) -/
theorem c5_roundtrip_nonarithmetic (data : List Nat)
    (hbytes : ∀ b ∈ data, b < 256) (hlen : data.length < SZ)
    (htok : ∀ t ∈ advanced_compress_tokens data,
      t.isLit = true ∨ t.isRun = true ∨ t.isCommonRun = true ∨ t.isZeroRun = true ∨
        t.isPat = true) :
    advanced_decompress (advanced_compress data) = some data := by
  have htok2 : ∀ t ∈ advanced_compress_tokens data,
      t.isDelta = false ∧ t.isNibble = false := by
    intro t ht
    rcases htok t ht with hx | hx | hx | hx | hx <;> cases t <;>
      simp_all [Token.isLit, Token.isRun, Token.isCommonRun, Token.isZeroRun, Token.isPat,
        Token.isDelta, Token.isNibble]
  unfold advanced_decompress advanced_compress
  have hcount := flatten_len_ge (advanced_compress_tokens data)
  obtain ⟨k, hk⟩ : ∃ k, (((advanced_compress_tokens data).map serializeToken).flatten).length =
      (advanced_compress_tokens data).length + k :=
    ⟨(((advanced_compress_tokens data).map serializeToken).flatten).length -
        (advanced_compress_tokens data).length,
      by omega⟩
  rw [hk]
  have hmain := enc_decode data hlen data.length 0 [] k (by omega) htok2
  rw [List.append_nil] at hmain
  have hnil : decLoop k [] = some [] := by cases k <;> rfl
  rw [hnil] at hmain
  simp only [List.drop_zero, Option.map_some', List.append_nil] at hmain
  exact hmain

/-- Witness for C5 at the concrete input `[7]`, whose encoding is the single
Literal token `[1, 7]`. -/
theorem c5_roundtrip_nonarithmetic_witness :
    advanced_decompress (advanced_compress [7]) = some [7] :=
  c5_roundtrip_nonarithmetic [7] (by decide) (by decide) (by decide)

/-- C6.  The claim asserts the decoder fails with `FormatError::UnknownEscape`
on the reserved sentinel 0xF1.  The code never checks for `EXT_INCR_SEQ`: the
byte falls through to the generic mode dispatch, where `0xF1 & 0xC0 = 0xC0`
(Delta) with length `0xF1 & 0x3F = 49`, so the stream `[0xF1, 0x05, 0x10]` is
silently decoded as 49 copies of the byte 5 instead of an error. -/
theorem c6_reserved_f1_decoded_as_delta :
    advanced_decompress [EXT_INCR_SEQ, 0x05, 0x10] = some (List.replicate 49 5) := by decide

/-- C7.  The claim asserts a CommonRun escape with a palette index 8..15 fails
with `FormatError::InvalidPaletteIndex` via an explicit check.  The code
performs the lookup `common_values[val_idx]` unchecked, reading past the
8-entry table — undefined behaviour, modelled as the out-of-bounds result
`none`, not a typed palette error (the info byte 0x38 carries count 3 and
palette index 8). -/
theorem c7_palette_index_unchecked :
    advanced_decompress [EXT_COMMON_VAL, 0x38] = none := by decide

/-- C8.  Encoded-size upper bound: for every input buffer, the encoder's
output is at most twice as long as the input (every token writes at most
twice the bytes it covers, each literal byte paying for its control byte). -/
theorem c8_output_length_bound (data : List Nat) :
    (advanced_compress data).length ≤ 2 * data.length := by
  have h := encBytes_le data data.length 0 (by omega)
  simpa [advanced_compress, advanced_compress_tokens] using h

/-- C9.  Every CommonRun token the encoder emits refers to the palette value
0xFF; and at any in-bounds position holding a palette value other than 0xFF
where the RLE counter sees a run of length at least 3, the emitted token is a
ZeroRun (value 0) or a Delta (values below 128, delta 0), so the
RunLength/CommonRun rule never sees those runs. -/
theorem c9_commonrun_only_ff :
    (∀ (data : List Nat) (idx n : Nat),
        Token.commonRun idx n ∈ advanced_compress_tokens data →
          common_values.getD idx 0 = 0xFF) ∧
      ∀ (data : List Nat) (pos : Nat), pos < data.length →
        data.getD pos 0 ∈ common_values → data.getD pos 0 ≠ 0xFF →
        3 ≤ 1 + runExt data (data.getD pos 0) (pos + 1) 62 →
        (step data pos).isZeroRun = true ∨ (step data pos).isDelta = true := by
  constructor
  · intro data idx n hmem
    obtain ⟨q, hq⟩ := encTokens_mem data data.length 0 _ hmem
    exact step_common_ff data q idx n hq.symm
  · intro data pos hpos hmem hne hrl
    have hrun2 : 2 ≤ runExt data (data.getD pos 0) (pos + 1) 62 := by omega
    by_cases hzero : data.getD pos 0 = 0
    · left
      have hz254 : 3 ≤ 1 + runExt data 0 (pos + 1) 254 := by
        rw [hzero] at hrun2
        have := runExt_two_of_two data 0 (pos + 1) 62 254 hrun2 (by omega)
        omega
      unfold step
      rw [if_pos ⟨hzero, hz254⟩]
      rfl
    · right
      have hlt : data.getD pos 0 < 128 := by
        have hcases : data.getD pos 0 = 0 ∨ data.getD pos 0 = 1 ∨ data.getD pos 0 = 2 ∨
            data.getD pos 0 = 3 ∨ data.getD pos 0 = 4 ∨ data.getD pos 0 = 0xFF ∨
            data.getD pos 0 = 0x7F ∨ data.getD pos 0 = 0x20 := by
          simpa [common_values] using hmem
        rcases hcases with hc | hc | hc | hc | hc | hc | hc | hc <;> omega
      have ht := delta_of_run data pos hlt hrun2
      unfold step
      rw [if_neg (by rintro ⟨h1, -⟩; exact hzero h1), if_pos ht]
      rfl

/-- Witness for C9 at the run `[1, 1, 1]` (value 1 is in the palette and
below 128): the emitted token is a Delta. -/
theorem c9_commonrun_only_ff_witness :
    (step [1, 1, 1] 0).isZeroRun = true ∨ (step [1, 1, 1] 0).isDelta = true :=
  c9_commonrun_only_ff.2 [1, 1, 1] 0 (by decide) (by decide) (by decide) (by decide)

/-- C10.  The encoder terminates on every input: every iteration of its main
loop emits one token whose coverage is at least 1, and the coverages of the
emitted tokens sum to exactly the input length (the cursor strictly increases
until it reaches the end of the input). -/
theorem c10_encoder_terminates :
    (∀ (data : List Nat) (pos : Nat), pos < data.length → 1 ≤ (step data pos).cov) ∧
      ∀ data : List Nat, ((advanced_compress_tokens data).map Token.cov).sum = data.length := by
  constructor
  · exact fun data pos h => step_cov_pos data pos h
  · intro data
    have h := covSum_eq data data.length 0 (by omega)
    simpa [advanced_compress_tokens] using h

/-- Witness for C10 at the input `[5]`: the single literal token covers one
byte. -/
theorem c10_encoder_terminates_witness : 1 ≤ (step [5] 0).cov :=
  c10_encoder_terminates.1 [5] 0 (by decide)

end Compress
